import Mathlib

/-!
Verification of the attribute-validation and hierarchical-facet-detection
core of the generative-relevance repository.

The embedding models JSON values as an inductive type, records as
association lists from attribute names to JSON values, and translates
`validateAttributes` (src/lib/validate-attributes.ts) and
`detectHierarchicalFacets` (src/lib/detect-hierarchical-facets.ts)
as executable Lean functions.
-/

namespace GenRel

/-- A JSON value: the value space of Algolia records. -/
inductive JsonValue : Type where
  | null : JsonValue
  | bool : Bool → JsonValue
  | num : Int → JsonValue
  | str : String → JsonValue
  | arr : List JsonValue → JsonValue
  | obj : List (String × JsonValue) → JsonValue
deriving Repr

/-- A record is an object: an ordered association list of named JSON values,
mirroring `Record<string, unknown>` with `Object.entries` enumeration order. -/
abbrev JsRecord : Type := List (String × JsonValue)

/-! ## validateAttributes -/

/-- The modifier names of the pattern
`^(?:asc|desc|ordered|unordered|searchable|filterOnly)\((.+)\)$`. -/
def modifierNames : List String :=
  ["asc", "desc", "ordered", "unordered", "searchable", "filterOnly"]

/-- JavaScript line terminators, which `.` in a regex without the `s` flag
does not match. -/
def isLineTerm (c : Char) : Bool :=
  c = Char.ofNat 10 || c = Char.ofNat 13 ||
    c = Char.ofNat 0x2028 || c = Char.ofNat 0x2029

/-- `leadMatch p cs` holds when the character list `cs` starts with the
pattern `p` (the anchored-match part of `startsWith`). -/
def leadMatch : List Char → List Char → Bool
  | [], _ => true
  | _ :: _, [] => false
  | p :: ps, c :: cs => p = c && leadMatch ps cs

/-- Attempt to strip one modifier wrapper `m(...)` from `attr`:
the string must start with `m(`, end with `)`, and the inner capture of
`(.+)` must be non-empty and free of line terminators. -/
def stripModifier (m : String) (attr : String) : Option String :=
  if leadMatch (m ++ "(").data attr.data then
    match (attr.data.drop (m.length + 1)).reverse with
    | [] => none
    | last :: innerRev =>
      if last = Char.ofNat 41 then
        let inner := innerRev.reverse
        if 0 < inner.length && inner.all (fun c => !isLineTerm c) then
          some (String.mk inner)
        else
          none
      else
        none
  else
    none

/-- Whether `attribute` matches the modifier regex at all. -/
def matchesModifier (attr : String) : Bool :=
  (modifierNames.findSome? (fun m => stripModifier m attr)).isSome

/-- `getBaseAttribute`: strip a known modifier wrapper, or return the
string unchanged when the regex does not match. -/
def getBaseAttribute (attr : String) : String :=
  match modifierNames.findSome? (fun m => stripModifier m attr) with
  | some base => base
  | none => attr

/-- The names contributed to `allAttributeNames` by one record entry:
the top-level key, and for a plain (non-array) object value also the
dotted `parent.child` path of every nested key. -/
def entryKeys (key : String) (value : JsonValue) : List String :=
  match value with
  | .obj fields => key :: fields.map (fun f => key ++ "." ++ f.1)
  | _ => [key]

/-- The set of valid attribute names built by scanning every record
(`allAttributeNames` in the source; a list standing for the `Set`,
queried only through membership). -/
def validKeys (records : List JsRecord) : List String :=
  records.flatMap (fun record => record.flatMap (fun kv => entryKeys kv.1 kv.2))

/-- Split a character list at every comma, with the semantics of
JavaScript `s.split(',')`: the empty string yields one empty piece. -/
def splitCommaChars : List Char → List (List Char)
  | [] => [[]]
  | c :: cs =>
    if c = Char.ofNat 44 then
      [] :: splitCommaChars cs
    else
      match splitCommaChars cs with
      | [] => [[c]]
      | r :: rs => (c :: r) :: rs

/-- `s.split(',')` on strings. -/
def splitComma (s : String) : List String :=
  (splitCommaChars s.data).map String.mk

/-- The filter predicate of `validateAttributes`: strip the modifier,
split on commas, and require every base name to be a valid key. -/
def attributeValid (allAttributeNames : List String) (attr : String) : Bool :=
  let baseAttribute := getBaseAttribute attr
  let splitAttributes := splitComma baseAttribute
  splitAttributes.all (fun x => allAttributeNames.contains x)

/-- `validateAttributes(attributes, records, setting)`: with no records the
result is empty; otherwise keep exactly the suggestions all of whose
comma-separated base names occur among the valid keys. The `setting`
argument is used only for the diagnostic log line, which the pure
embedding drops. -/
def validateAttributes (attributes : List String) (records : List JsRecord)
    ( setting : String) : List String :=
  if records.length = 0 then
    []
  else
    attributes.filter (attributeValid (validKeys records))

/-! ## detectHierarchicalFacets -/

/-- Whether a character list contains `" > "` as a contiguous run. -/
def containsMarker : List Char → Bool
  | [] => false
  | c :: cs => leadMatch (" > ").data (c :: cs) || containsMarker cs

/-- Whether a string contains the literal substring `" > "`
(`val.includes(' > ')`). -/
def hasHierMarker (s : String) : Bool :=
  containsMarker s.data

/-- Whether one property value of a nested object qualifies it as
hierarchical: a string containing `" > "`, or an array some element of
which is such a string. -/
def hierValue (val : JsonValue) : Bool :=
  match val with
  | .str s => hasHierMarker s
  | .arr items =>
    items.any (fun item =>
      match item with
      | .str s => hasHierMarker s
      | _ => false)
  | _ => false

/-- Whether a top-level value marks its key as hierarchical: it must be a
plain (non-null, non-array) object at least one of whose property values
qualifies. -/
def entryHierarchical (value : JsonValue) : Bool :=
  match value with
  | .obj fields => fields.any (fun f => hierValue f.2)
  | _ => false

/-- Insertion into the result set: JavaScript `Set.add`, keeping
first-insertion order and ignoring an element already present. -/
def setAdd (s : List String) (x : String) : List String :=
  if x ∈ s then s else s ++ [x]

/-- One step of the inner loop over a record entry. -/
def detectStep (acc : List String) (kv : String × JsonValue) : List String :=
  if entryHierarchical kv.2 then setAdd acc kv.1 else acc

/-- The inner loop over the entries of one record. -/
def detectRecord (acc : List String) (record : JsRecord) : List String :=
  record.foldl detectStep acc

/-- `detectHierarchicalFacets(records)`: scan every record and collect,
in first-seen order and without duplicates, the top-level keys whose
object values contain a `" > "` marker. -/
def detectHierarchicalFacets (records : List JsRecord) : List String :=
  records.foldl detectRecord []

/-! ## Claims about validateAttributes -/

/-- C1: a suggestion wrapped in a known modifier survives `validateAttributes`
in its original wrapped form exactly when its base name is a key of some
sample record: `desc(price)` is kept (in wrapped form) against a record with
key `price`, while `desc(missing)` is dropped. -/
theorem validateAttributes_modifier_examples :
    validateAttributes ["desc(price)"] [[("price", .num 10)]] "x" = ["desc(price)"] ∧
    validateAttributes ["desc(missing)"] [[("price", .num 10)]] "x" = [] := by
  decide

/-- C2: the output of `validateAttributes` is always a sublist of the input
suggestions — every output element is literally an input element, surviving
elements keep their relative order, and nothing is added. -/
theorem validateAttributes_sublist (S : List String) (R : List JsRecord) (L : String) :
    List.Sublist (validateAttributes S R L) S := by
  unfold validateAttributes
  split
  · exact List.nil_sublist S
  · exact List.filter_sublist S

/-- C4: with an empty sample-record list, `validateAttributes` returns the
empty list unconditionally, whatever the suggestions and the label. -/
theorem validateAttributes_empty_records (S : List String) (L : String) :
    validateAttributes S [] L = [] := rfl

/-- C5: `validateAttributes` is idempotent — running the validated output
through validation again, with the same records and label, changes nothing. -/
theorem validateAttributes_idempotent (S : List String) (R : List JsRecord) (L : String) :
    validateAttributes (validateAttributes S R L) R L = validateAttributes S R L := by
  unfold validateAttributes
  split
  · rfl
  · rw [List.filter_filter]
    simp [Bool.and_self]

/-- The filter predicate accepts an attribute exactly when every
comma-separated base name occurs among the valid keys. -/
theorem attributeValid_iff (keys : List String) (a : String) :
    attributeValid keys a = true ↔ ∀ x ∈ splitComma (getBaseAttribute a), x ∈ keys := by
  unfold attributeValid
  rw [List.all_eq_true]
  constructor
  · intro h x hx
    exact List.elem_iff.mp (h x hx)
  · intro h x hx
    exact List.elem_iff.mpr (h x hx)

/-- C3: with non-empty records, a suggested entry survives if and only if
every comma-separated base name (after stripping the modifier) is present
in the valid-key set; in particular `title,subtitle` survives against a
record carrying both keys and is dropped whole when `subtitle` is absent. -/
theorem validateAttributes_comma_split :
    (∀ (S : List String) (R : List JsRecord) (L a : String), R ≠ [] → a ∈ S →
      (a ∈ validateAttributes S R L ↔
        ∀ x ∈ splitComma (getBaseAttribute a), x ∈ validKeys R)) ∧
    validateAttributes ["title,subtitle"] [[("title", .str "a"), ("subtitle", .str "b")]] "x"
      = ["title,subtitle"] ∧
    validateAttributes ["title,subtitle"] [[("title", .str "a")]] "x" = [] := by
  refine ⟨?_, by decide, by decide⟩
  intro S R L a hR hS
  unfold validateAttributes
  rw [if_neg (by simpa [List.length_eq_zero] using hR)]
  rw [List.mem_filter, attributeValid_iff]
  simp [hS]

/-- Witness for C3: the survival criterion applied at a concrete input. -/
theorem validateAttributes_comma_split_witness :
    "title,subtitle" ∈ validateAttributes ["title,subtitle"]
      [[("title", .str "a"), ("subtitle", .str "b")]] "x" :=
  (validateAttributes_comma_split.1 ["title,subtitle"]
      [[("title", .str "a"), ("subtitle", .str "b")]] "x" "title,subtitle"
      (by simp) (by simp)).mpr (by decide)

/-! ## Claims about detectHierarchicalFacets -/

/-- C6: `detectHierarchicalFacets` marks an attribute as hierarchical only on
the literal substring `" > "`: a record with `lvl1 = "products > fruits"`
yields `["categories"]`, while chevrons without surrounding spaces
(`"5>3"`, `"x>y"`) yield `[]`. -/
theorem detectHierarchicalFacets_marker_examples :
    detectHierarchicalFacets
      [[("categories", .obj [("lvl0", .str "products"), ("lvl1", .str "products > fruits")])]]
      = ["categories"] ∧
    detectHierarchicalFacets [[("cmp", .obj [("a", .str "5>3"), ("b", .str "x>y")])]] = [] := by
  decide

/-- Membership after a `Set.add` step. -/
theorem mem_setAdd {s : List String} {x y : String} :
    y ∈ setAdd s x ↔ y ∈ s ∨ y = x := by
  unfold setAdd
  split
  · rename_i h
    constructor
    · exact fun hy => Or.inl hy
    · rintro (hy | rfl)
      · exact hy
      · exact h
  · simp [List.mem_append]

/-- `Set.add` preserves the absence of duplicates. -/
theorem nodup_setAdd {s : List String} {x : String} (h : s.Nodup) :
    (setAdd s x).Nodup := by
  unfold setAdd
  split
  · exact h
  · rename_i hx
    simp [List.nodup_append, h, hx]

/-- Membership after processing one record entry. -/
theorem mem_detectStep {acc : List String} {kv : String × JsonValue} {y : String} :
    y ∈ detectStep acc kv ↔ y ∈ acc ∨ (y = kv.1 ∧ entryHierarchical kv.2 = true) := by
  unfold detectStep
  split
  · rename_i h
    rw [mem_setAdd]
    simp [h]
  · rename_i h
    simp [h]

/-- Membership after the inner loop over one record. -/
theorem mem_detectRecord {record : JsRecord} {acc : List String} {y : String} :
    y ∈ detectRecord acc record ↔
      y ∈ acc ∨ ∃ v, (y, v) ∈ record ∧ entryHierarchical v = true := by
  induction record generalizing acc with
  | nil => simp [detectRecord]
  | cons kv rest ih =>
    have hstep : detectRecord acc (kv :: rest) = detectRecord (detectStep acc kv) rest := rfl
    rw [hstep, ih, mem_detectStep]
    simp only [List.mem_cons, Prod.ext_iff]
    constructor
    · rintro ((hy | ⟨rfl, hh⟩) | ⟨v, hv, hh⟩)
      · exact Or.inl hy
      · exact Or.inr ⟨kv.2, Or.inl ⟨rfl, rfl⟩, hh⟩
      · exact Or.inr ⟨v, Or.inr hv, hh⟩
    · rintro (hy | ⟨v, ⟨h1, h2⟩ | hv, hh⟩)
      · exact Or.inl (Or.inl hy)
      · exact Or.inl (Or.inr ⟨h1, h2 ▸ hh⟩)
      · exact Or.inr ⟨v, hv, hh⟩

/-- Membership after the outer loop over all records. -/
theorem mem_detectFold {records : List JsRecord} {acc : List String} {y : String} :
    y ∈ records.foldl detectRecord acc ↔
      y ∈ acc ∨ ∃ record ∈ records, ∃ v, (y, v) ∈ record ∧ entryHierarchical v = true := by
  induction records generalizing acc with
  | nil => simp
  | cons r rs ih =>
    have hstep : (r :: rs).foldl detectRecord acc = rs.foldl detectRecord (detectRecord acc r) := rfl
    rw [hstep, ih, mem_detectRecord]
    constructor
    · rintro ((hy | ⟨v, hv, hh⟩) | ⟨record, hrec, v, hv, hh⟩)
      · exact Or.inl hy
      · exact Or.inr ⟨r, List.mem_cons_self r rs, v, hv, hh⟩
      · exact Or.inr ⟨record, List.mem_cons_of_mem r hrec, v, hv, hh⟩
    · rintro (hy | ⟨record, hrec, v, hv, hh⟩)
      · exact Or.inl (Or.inl hy)
      · rcases List.mem_cons.mp hrec with rfl | hrec
        · exact Or.inl (Or.inr ⟨v, hv, hh⟩)
        · exact Or.inr ⟨record, hrec, v, hv, hh⟩

/-- The inner loop preserves the absence of duplicates. -/
theorem nodup_detectRecord {record : JsRecord} {acc : List String} (h : acc.Nodup) :
    (detectRecord acc record).Nodup := by
  induction record generalizing acc with
  | nil => exact h
  | cons kv rest ih =>
    have hstep : detectRecord acc (kv :: rest) = detectRecord (detectStep acc kv) rest := rfl
    rw [hstep]
    refine ih ?_
    unfold detectStep
    split
    · exact nodup_setAdd h
    · exact h

/-- The outer loop preserves the absence of duplicates. -/
theorem nodup_detectFold {records : List JsRecord} {acc : List String} (h : acc.Nodup) :
    (records.foldl detectRecord acc).Nodup := by
  induction records generalizing acc with
  | nil => exact h
  | cons r rs ih => exact ih (nodup_detectRecord h)

/-- C7: `detectHierarchicalFacets` is a deduplicated union across records —
an attribute name is in the output exactly when some record carries it with
a qualifying value, and the output has no duplicates. -/
theorem detectHierarchicalFacets_union_dedup :
    (∀ (R : List JsRecord) (k : String),
      k ∈ detectHierarchicalFacets R ↔
        ∃ record ∈ R, ∃ v, (k, v) ∈ record ∧ entryHierarchical v = true) ∧
    ∀ R : List JsRecord, (detectHierarchicalFacets R).Nodup := by
  constructor
  · intro R k
    unfold detectHierarchicalFacets
    rw [mem_detectFold]
    simp
  · intro R
    exact nodup_detectFold List.nodup_nil

/-- Unfolding of `hierValue` on an array value. -/
theorem hierValue_arr (items : List JsonValue) :
    hierValue (.arr items) = items.any (fun item =>
      match item with
      | .str s => hasHierMarker s
      | _ => false) := rfl

/-- C8: an array property value qualifies its parent attribute exactly when
some element is a string containing `" > "`; an empty array never qualifies;
a non-string element is ignored rather than checked for the marker. -/
theorem hierValue_array_spec :
    (∀ items : List JsonValue,
      hierValue (.arr items) = true ↔
        ∃ s, JsonValue.str s ∈ items ∧ hasHierMarker s = true) ∧
    hierValue (.arr []) = false ∧
    (∀ (v : JsonValue) (items : List JsonValue), (∀ s, v ≠ .str s) →
      hierValue (.arr (v :: items)) = hierValue (.arr items)) := by
  refine ⟨?_, rfl, ?_⟩
  · intro items
    rw [hierValue_arr, List.any_eq_true]
    constructor
    · rintro ⟨x, hx, hfx⟩
      cases x with
      | str s => exact ⟨s, hx, hfx⟩
      | null => exact absurd hfx (by simp)
      | bool b => exact absurd hfx (by simp)
      | num n => exact absurd hfx (by simp)
      | arr l => exact absurd hfx (by simp)
      | obj l => exact absurd hfx (by simp)
    · rintro ⟨s, hs, hm⟩
      exact ⟨.str s, hs, hm⟩
  · intro v items hv
    rw [hierValue_arr, hierValue_arr, List.any_cons]
    cases v with
    | str s => exact absurd rfl (hv s)
    | null => simp
    | bool b => simp
    | num n => simp
    | arr l => simp
    | obj l => simp

/-- Witness for C8: a non-string head element is ignored. -/
theorem hierValue_array_spec_witness :
    hierValue (.arr [JsonValue.num 5, JsonValue.str "a > b"])
      = hierValue (.arr [JsonValue.str "a > b"]) :=
  hierValue_array_spec.2.2 (JsonValue.num 5) [JsonValue.str "a > b"]
    (fun s h => JsonValue.noConfusion h)

/-! ## Totality and key-set shape -/

/-- C9: both functions are total — modelled as executable functions they
return a value on every input, and a string that fails the modifier regex
is passed through `getBaseAttribute` unchanged, i.e. treated as a bare
attribute name rather than an error. -/
theorem functions_total_malformed_bare :
    (∀ a : String, matchesModifier a = false → getBaseAttribute a = a) ∧
    (∀ (S : List String) (R : List JsRecord) (L : String),
      ∃ out, validateAttributes S R L = out) ∧
    (∀ R : List JsRecord, ∃ out, detectHierarchicalFacets R = out) := by
  refine ⟨?_, fun S R L => ⟨_, rfl⟩, fun R => ⟨_, rfl⟩⟩
  intro a h
  unfold matchesModifier at h
  unfold getBaseAttribute
  rcases hm : modifierNames.findSome? (fun m => stripModifier m a) with _ | b
  · rfl
  · rw [hm] at h
    simp at h

/-- Witness for C9: a malformed wrapper is treated as a bare name. -/
theorem functions_total_malformed_bare_witness :
    getBaseAttribute "desc(price" = "desc(price" :=
  functions_total_malformed_bare.1 "desc(price" (by decide)

/-- C10: every valid key is either a top-level record key or a one-level
`parent.child` dotted path; consequently a base name like `a.b.c` is
dropped even when the three-level nesting `{a: {b: {c: 1}}}` exists in the
records. -/
theorem validKeys_one_level :
    (∀ (R : List JsRecord) (x : String), x ∈ validKeys R →
      (∃ record ∈ R, ∃ v, (x, v) ∈ record) ∨
      (∃ record ∈ R, ∃ k fields sk sv, (k, JsonValue.obj fields) ∈ record ∧
        (sk, sv) ∈ fields ∧ x = k ++ "." ++ sk)) ∧
    validateAttributes ["a.b.c"] [[("a", .obj [("b", .obj [("c", .num 1)])])]] "x" = [] := by
  refine ⟨?_, by decide⟩
  intro R x hx
  unfold validKeys at hx
  rw [List.mem_flatMap] at hx
  obtain ⟨record, hrec, hx⟩ := hx
  rw [List.mem_flatMap] at hx
  obtain ⟨kv, hkv, hx⟩ := hx
  obtain ⟨k, v⟩ := kv
  cases v with
  | obj fields =>
    simp only [entryKeys] at hx
    rcases List.mem_cons.mp hx with rfl | hx
    · exact Or.inl ⟨record, hrec, .obj fields, hkv⟩
    · rw [List.mem_map] at hx
      obtain ⟨f, hf, hxeq⟩ := hx
      exact Or.inr ⟨record, hrec, k, fields, f.1, f.2, hkv, hf, hxeq.symm⟩
  | null =>
    simp only [entryKeys, List.mem_singleton] at hx
    exact Or.inl ⟨record, hrec, .null, hx ▸ hkv⟩
  | bool b =>
    simp only [entryKeys, List.mem_singleton] at hx
    exact Or.inl ⟨record, hrec, .bool b, hx ▸ hkv⟩
  | num n =>
    simp only [entryKeys, List.mem_singleton] at hx
    exact Or.inl ⟨record, hrec, .num n, hx ▸ hkv⟩
  | str s =>
    simp only [entryKeys, List.mem_singleton] at hx
    exact Or.inl ⟨record, hrec, .str s, hx ▸ hkv⟩
  | arr l =>
    simp only [entryKeys, List.mem_singleton] at hx
    exact Or.inl ⟨record, hrec, .arr l, hx ▸ hkv⟩

/-- Witness for C10: the key-set shape applied at a concrete input. -/
theorem validKeys_one_level_witness :
    (∃ record ∈ [[("p", JsonValue.num 1)]], ∃ v, ("p", v) ∈ record) ∨
    (∃ record ∈ [[("p", JsonValue.num 1)]], ∃ k fields sk sv,
      (k, JsonValue.obj fields) ∈ record ∧ (sk, sv) ∈ fields ∧ "p" = k ++ "." ++ sk) :=
  validKeys_one_level.1 [[("p", JsonValue.num 1)]] "p" (by decide)

end GenRel
